import Mathlib

/-!
Verification of the dcli distributed shell (src/dcli.py) against its
specification.  The Python source is shallowly embedded: pure helper
functions become Lean functions, the per-host pipeline and the result
renderers become pure functions over explicit inputs, and the pieces that
touch the outside world (DNS resolution, TCP connect, subprocess spawning,
the regular-expression engine) are abstracted as oracle parameters.
Python integers are modelled as `Int`; Python truthiness of optional
integers is modelled explicitly.
-/

namespace Dcli

/-! ### Python string primitives

`pySpace` recognises the characters Python's `str.strip`/`str.split`
treat as whitespace: space (32), tab (9), newline (10), carriage
return (13), vertical tab (11) and form feed (12). -/

def pySpace (c : Char) : Bool :=
  c.toNat = 32 || c.toNat = 9 || c.toNat = 10 || c.toNat = 13 ||
    c.toNat = 11 || c.toNat = 12

/-- Python `s.strip()`: drop leading and trailing whitespace. -/
def pyStrip (s : String) : String :=
  (((s.toList.dropWhile pySpace).reverse.dropWhile pySpace).reverse).asString

/-- Whitespace tokenisation: `acc` holds the current token reversed. -/
def wsTokens : List Char → List Char → List String
  | [], acc => if acc = [] then [] else [acc.reverse.asString]
  | c :: cs, acc =>
    if pySpace c then
      if acc = [] then wsTokens cs [] else acc.reverse.asString :: wsTokens cs []
    else wsTokens cs (c :: acc)

/-- Python `s.split()` with no argument: split on whitespace runs,
discarding empty pieces. -/
def pySplit (s : String) : List String :=
  wsTokens s.toList []

/-- Comma split: `acc` holds the current piece reversed (code 44 is
the comma). -/
def commaTokens : List Char → List Char → List String
  | [], acc => [acc.reverse.asString]
  | c :: cs, acc =>
    if c.toNat = 44 then acc.reverse.asString :: commaTokens cs []
    else commaTokens cs (c :: acc)

/-- Python `s.split(",")`: split at every comma, keeping empty pieces. -/
def pySplitComma (s : String) : List String :=
  commaTokens s.toList []

/-- Numeric value of a digit list (digit char code minus 48). -/
def digitsToNat (cs : List Char) : Nat :=
  cs.foldl (fun a c => 10 * a + (c.toNat - 48)) 0

/-- Decimal digit characters (codes 48-57). -/
def isDigitCh (c : Char) : Bool :=
  48 ≤ c.toNat && c.toNat ≤ 57

/-- A nonempty all-digit character list parses to its value. -/
def parseNatDigits (cs : List Char) : Option Nat :=
  if cs ≠ [] ∧ cs.all isDigitCh then some (digitsToNat cs) else none

/-- `getInt` of src/dcli.py: Python `int(str)` wrapped so that a
non-numeric string yields `none` instead of raising `ValueError`.
Char code 45 is the minus sign, 43 is the plus sign. -/
def getInt (s : String) : Option Int :=
  match s.toList with
  | [] => none
  | c :: rest =>
    if c.toNat = 45 then (parseNatDigits rest).map (fun n => -(n : Int))
    else if c.toNat = 43 then (parseNatDigits rest).map (fun n => (n : Int))
    else (parseNatDigits (c :: rest)).map (fun n => (n : Int))

/-- Python truthiness of an optional integer (`None` and `0` are falsy). -/
def pyTruthy : Option Int → Bool
  | none => false
  | some k => k != 0

/-! ### buildCellList (src/dcli.py lines 150-184)

The group file is modelled as the list of its lines (already read);
`none` models the absence of a `-g` option.  The inline `-c` occurrences
are the `cellArgs` list. -/

/-- `line.startswith("#")` (code 35 is the hash character). -/
def startsWithHash (l : String) : Bool :=
  match l.toList with
  | [] => false
  | c :: _ => c.toNat = 35

/-- Hosts contributed by the group file: each line stripped, empty lines
and lines starting with `#` ignored. -/
def fileHosts (lines : List String) : List String :=
  (lines.map pyStrip).filter (fun l => l.toList ≠ [] && !(startsWithHash l))

/-- Hosts contributed by the inline `-c` options: each occurrence is
comma-split and every piece stripped. -/
def inlineHosts (cellArgs : List String) : List String :=
  cellArgs.flatMap (fun cl => (pySplitComma cl).map pyStrip)

/-- One step of the `uniqueCellList` loop: append `c` unless present. -/
def insertUniq (acc : List String) (c : String) : List String :=
  if c ∈ acc then acc else acc ++ [c]

/-- The group-file contribution (`none` models no `-g` option). -/
def groupHosts : Option (List String) → List String
  | some ls => fileHosts ls
  | none => []

/-- `buildCellList` of src/dcli.py: group-file hosts followed by inline
hosts, then the uniqueness loop. -/
def buildCellList (cellArgs : List String) (groupLines : Option (List String)) :
    List String :=
  let celllist := groupHosts groupLines ++ inlineHosts cellArgs
  celllist.foldl insertUniq []

/-- First-occurrence de-duplication, written by structural descent:
keep the head, delete its later duplicates, recurse.  This is the
specification-side description of "duplicates removed so that each host
appears at the position of its first occurrence". -/
def dedupFirst : List String → List String
  | [] => []
  | a :: l => a :: dedupFirst (l.filter (fun b => b ≠ a))
termination_by l => l.length
decreasing_by
  simp only [List.length_cons]
  exact Nat.lt_succ_of_le (List.length_filter_le _ l)

/-! ### checkVmstat (src/dcli.py lines 270-327)

The option string is tokenised by `pySplit` (Python `split()`), and the
loop over the tokens is `checkVmstatAux`: `rpt`/`dly` are the `repeat`
and `delay` variables, `cmd` accumulates `vmstatCommand`.  The Python
`return None, None` rejections are the `(none, none)` results. -/

/-- The flags that disqualify periodic sampling. -/
def vmFlagTokens : List String := ["-f", "-s", "-m", "-p", "-D", "-d", "-V"]

/-- `some k` with `k < 1` (Python `num != None and num < 1`). -/
def numLtOne : Option Int → Bool
  | none => false
  | some k => k < 1

/-- The token loop plus the final delay/repeat defaulting of
`checkVmstat`.  `cmd ++ toString d ++ " "` is Python `"%d " % delay`. -/
def checkVmstatAux : List String → Option Int → Option Int → String →
    Option Int × Option String
  | [], rpt, dly, cmd =>
    match dly with
    | some d =>
      if pyTruthy (some d) then
        let cmd := cmd ++ toString d ++ " "
        if pyTruthy rpt then (rpt, some cmd) else (some (-1), some cmd)
      else (some 1, some (cmd ++ "1 "))
    | none => (some 1, some (cmd ++ "1 "))
  | op :: rest, rpt, dly, cmd =>
    if op ∈ vmFlagTokens then (none, none)
    else
      let num := getInt op
      if numLtOne num then (none, none)
      else if pyTruthy num then
        if pyTruthy rpt then (none, none)
        else if pyTruthy dly then checkVmstatAux rest num dly cmd
        else checkVmstatAux rest rpt num cmd
      else if op = "-n" then checkVmstatAux rest rpt dly cmd
      else checkVmstatAux rest rpt dly (cmd ++ op ++ " ")

/-- `checkVmstat` of src/dcli.py: returns the repeat count and the
command to send (`(none, none)` models the `return None, None` paths). -/
def checkVmstat (vmstatOptions : String) : Option Int × Option String :=
  checkVmstatAux (pySplit vmstatOptions) none none "vmstat "

/-! ### Command quoting (src/dcli.py lines 738-744)

`copyAndExecute` normalises the remote command before spawning threads:
if `re.match` finds neither `^'.*'$` nor `^\".*\"$`, every single quote
is escaped and the whole command wrapped in single quotes.  In the
regular expression, `.` does not match a newline and `$` matches at the
end of the string or just before a final newline; `reMatchWrapped`
reproduces exactly that.  Char code 39 is the single quote, 34 the
double quote, 92 the backslash, 10 the newline. -/

/-- No newline character among `cs` (the region `.*` has to cross). -/
def noNewline (cs : List Char) : Bool :=
  cs.all (fun c => c.toNat ≠ 10)

/-- The part of `re.match("^Q.*Q$", s)` after the opening quote:
either the rest is `mid ++ [Q]` with `mid` newline-free, or it is
`mid ++ [Q, newline]` with `mid` newline-free. -/
def wrappedTail (q : Nat) (rest : List Char) : Bool :=
  match rest.reverse with
  | [] => false
  | last :: revMid =>
    (last.toNat = q && noNewline revMid) ||
      (last.toNat = 10 &&
        match revMid with
        | [] => false
        | q2 :: revMid2 => q2.toNat = q && noNewline revMid2)

/-- Python `re.match("^Q.*Q$", s)` for a quote character `Q` (given by
its char code `q`), as a boolean. -/
def reMatchWrapped (q : Nat) (s : String) : Bool :=
  match s.toList with
  | [] => false
  | c :: rest => c.toNat = q && wrappedTail q rest

/-- Python `command.replace("'", "'\\''")`: each single quote becomes
quote, backslash, quote, quote. -/
def escSingleChars : List Char → List Char
  | [] => []
  | c :: cs =>
    if c.toNat = 39 then
      Char.ofNat 39 :: Char.ofNat 92 :: Char.ofNat 39 :: Char.ofNat 39 ::
        escSingleChars cs
    else c :: escSingleChars cs

/-- The command-quoting normalisation of `copyAndExecute`
(`if command and not (re.match ...): escape and wrap`). -/
def quoteCommand (command : String) : String :=
  if command ≠ "" ∧
      ¬(reMatchWrapped 39 command = true ∨ reMatchWrapped 34 command = true) then
    (Char.ofNat 39 :: (escSingleChars command.toList ++ [Char.ofNat 39])).asString
  else command

/-! ### testCells (src/dcli.py lines 1205-1249)

DNS resolution and the TCP connect probe are external effects; they are
abstracted as a `ProbeEnv` oracle.  `resolve c = none` models
`getaddrinfo` raising `socket.error`; otherwise it yields the address
list, each entry an address family paired with an opaque socket address
(modelled as `Nat`).  `connectOk c = false` models `ts.connect` raising
`socket.error`/`socket.timeout`. -/

inductive AddrFamily | v4 | v6 | other
deriving DecidableEq, Repr

structure ProbeEnv where
  resolve : String → Option (List (AddrFamily × Nat))
  connectOk : String → Bool
  hasIpv6 : Bool

/-- The `for addr in res` loop: take the first address whose family is
`AF_INET`, or `AF_INET6` when the platform supports IPv6. -/
def pickAddr (hasIpv6 : Bool) : List (AddrFamily × Nat) → Option Nat
  | [] => none
  | (f, a) :: rest =>
    if f = AddrFamily.v4 ∨ (f = AddrFamily.v6 ∧ hasIpv6 = true) then some a
    else pickAddr hasIpv6 rest

/-- Classification of one cell: its resolved socket address when it is
reachable, `none` when any per-host step fails. -/
def classifyCell (env : ProbeEnv) (c : String) : Option Nat :=
  match env.resolve c with
  | none => none
  | some res =>
    match pickAddr env.hasIpv6 res with
    | none => none
    | some a => if env.connectOk c then some a else none

/-- `testCells` of src/dcli.py: partition the cell list into the good
list (cell paired with socket address) and the bad list, both in input
order. -/
def testCells (env : ProbeEnv) : List String → List (String × Nat) × List String
  | [] => ([], [])
  | c :: rest =>
    match classifyCell env c with
    | some a => ((c, a) :: (testCells env rest).1, (testCells env rest).2)
    | none => ((testCells env rest).1, c :: (testCells env rest).2)

/-! ### The per-host pipeline: WorkThread.run (src/dcli.py lines 378-472)

One `WorkThread` runs up to four subprocess steps for its cell, in the
fixed order key-push, file copy, remote command, key-drop.  What each
step's subprocess does is external, so it is abstracted as a `runner`
oracle mapping a step to its exit status and output lines.  The
configuration booleans mirror the Python guards: `hasKey` is `SSHKEY`
nonempty, `hasFiles` is `files` nonempty, `hasCommand` is `command`
non-null. -/

inductive Step | keyPush | copyStep | cmdStep | keyDrop
deriving DecidableEq, Repr

/-- The fixed pipeline order. -/
def stepOrder : List Step := [Step.keyPush, Step.copyStep, Step.cmdStep, Step.keyDrop]

structure JobCfg where
  hasKey : Bool
  pushKey : Bool
  hasFiles : Bool
  hasCommand : Bool
  dropKey : Bool

structure HostRun where
  status : Int
  output : List String
  trace : List Step
deriving Repr

/-- One guarded block of `WorkThread.run`:
`if not childStatus and <enabled>: childStatus, l = self.runCommandSeq(...);
childOutput.extend(l)`. -/
def stepRun (runner : Step → Int × List String) (st : HostRun) (enabled : Bool)
    (s : Step) : HostRun :=
  if st.status == 0 && enabled then
    { status := (runner s).1, output := st.output ++ (runner s).2,
      trace := st.trace ++ [s] }
  else st

/-- `WorkThread.run`: `childStatus` starts at 0; the key-push step runs
whenever `SSHKEY and pushKey` (no status guard); the copy step runs when
the status is zero and `files` is nonempty; the command step when the
status is zero and a command is present; the key-drop step when the
status is zero and `SSHKEY and dropKey`.  `trace` records the steps
actually attempted, in order. -/
def runHost (cfg : JobCfg) (runner : Step → Int × List String) : HostRun :=
  let st1 : HostRun :=
    if cfg.hasKey && cfg.pushKey then
      { status := (runner Step.keyPush).1, output := (runner Step.keyPush).2,
        trace := [Step.keyPush] }
    else { status := 0, output := [], trace := [] }
  let st2 := stepRun runner st1 cfg.hasFiles Step.copyStep
  let st3 := stepRun runner st2 cfg.hasCommand Step.cmdStep
  let st4 := stepRun runner st3 (cfg.hasKey && cfg.dropKey) Step.keyDrop
  st4

/-! ### readNLines and the truncation path
(src/dcli.py lines 638-683 and 489-603)

The child's stdout is modelled as the list of lines it would deliver.
`displayChunks` is the Python `display_chunks` flag, computed from the
serialize option and the number of cells.  A `ReadResult` records the
lines still pending (returned to `runCommand`), the chunks flushed to
the caller via `listResults`, whether the output was truncated, and how
many truncation warnings were printed. -/

structure ReadResult where
  pending : List String
  flushed : List (List String)
  truncated : Bool
  warnCount : Nat
deriving Repr, DecidableEq

/-- The `for l in iter(r.readline, "")` loop of `readNLines`: `i` is the
line counter, `acc` the accumulated `outputLines`. -/
def readNLinesAux (maxLines : Nat) (displayChunks : Bool) :
    List String → Nat → List String → ReadResult
  | [], _, acc => ⟨acc, [], false, 0⟩
  | l :: rest, i, acc =>
    let acc' := acc ++ [l]
    let i' := i + 1
    if i' > maxLines then
      if displayChunks then
        let r := readNLinesAux maxLines displayChunks rest 0 []
        ⟨r.pending, acc' :: r.flushed, r.truncated, r.warnCount⟩
      else ⟨[], [acc'], true, 1⟩
    else readNLinesAux maxLines displayChunks rest i' acc'

/-- `WorkThread.readNLines`: `display_chunks` is 1 when serialized or
when there is a single cell. -/
def readNLines (maxLines : Nat) (serialize : Bool) (numCells : Nat)
    (lines : List String) : ReadResult :=
  readNLinesAux maxLines (serialize || numCells == 1) lines 0 []

/-- The status adjustment at the end of `WorkThread.runCommand`:
`if self.output_truncated == 1: status = 1`. -/
def runCommandStatus (childStatus : Int) (r : ReadResult) : Int :=
  if r.truncated then 1 else childStatus

/-! ### listResults (src/dcli.py lines 794-833)

The status and output dictionaries are modelled as association lists
(`pyGet` is dictionary lookup).  The compiled regular expression is
abstracted as an `REOracle`: `matchAt s i` tells whether the pattern
matches the string `s` starting at offset `i`.  Python `re.match`
consults offset 0 only, which is `reMatch`. -/

def pyGet (m : List (String × α)) (k : String) : Option α :=
  (m.find? (fun p => p.1 = k)).map (fun p => p.2)

structure REOracle where
  matchAt : String → Nat → Bool

/-- `compiledRE.match(s)`: anchored at the start of `s`. -/
def reMatch (r : REOracle) (s : String) : Bool := r.matchAt s 0

/-- The per-line suppression test of the printing loop:
`compiledRE.match(l.strip())`. -/
def lineSuppressed (r : REOracle) (l : String) : Bool :=
  reMatch r (pyStrip l)

/-- The `reCells` membership test: some output line matches the pattern
(the inner loop breaks at the first match). -/
def cellMatches (r : REOracle) (out : List String) : Bool :=
  out.any (fun l => lineSuppressed r l)

/-- `statusMap[cell] > 0`, the guard restricting output to failing cells
when `listNegatives` is set. -/
def statusPosB (statusOf : String → Option Int) (c : String) : Bool :=
  match statusOf c with
  | some s => s > 0
  | none => false

/-- Structured rendering result: the optional `OK:` cell list, the
optional pattern-matching cell list, and one entry per rendered cell
with the (stripped) lines printed for it. -/
structure RenderOut where
  okLine : Option (List String)
  reLine : Option (List String)
  body : List (String × List String)
deriving DecidableEq, Repr

/-- `listResults`, as a function of the lookup maps (the maps enter only
through `pyGet`, which is made explicit by `listResultsF`). -/
def listResultsF (cells : List String) (statusOf : String → Option Int)
    (outputOf : String → Option (List String)) (listNegatives : Bool)
    (regexp : Option REOracle) : RenderOut :=
  let okCells :=
    if listNegatives then
      cells.filter (fun c => statusOf c == some 0)
    else []
  let okLine := if listNegatives && !okCells.isEmpty then some okCells else none
  let reCells :=
    match regexp with
    | some r =>
      cells.filter (fun c =>
        match outputOf c with
        | some out => cellMatches r out
        | none => false)
    | none => []
  let reLine :=
    match regexp with
    | some _ => if !reCells.isEmpty then some reCells else none
    | none => none
  let body :=
    (cells.filter (fun c =>
        (outputOf c).isSome && (!listNegatives || statusPosB statusOf c))).map
      (fun c =>
        (c, ((outputOf c).getD []).filterMap (fun l =>
          match regexp with
          | some r => if lineSuppressed r l then none else some (pyStrip l)
          | none => some (pyStrip l))))
  ⟨okLine, reLine, body⟩

/-- `listResults` of src/dcli.py on association-list dictionaries.
A cell missing from `statusMap` while `listNegatives` is set would raise
`KeyError` in Python; the embedding treats the lookup as false, which
agrees with the source whenever the guard lookups succeed. -/
def listResults (cells : List String) (statusMap : List (String × Int))
    (outputMap : List (String × List String)) (listNegatives : Bool)
    (regexp : Option REOracle) : RenderOut :=
  listResultsF cells (pyGet statusMap) (pyGet outputMap) listNegatives regexp

/-! ### listVmstatResults statistics (src/dcli.py lines 855-927)

Each host's contribution is the whitespace-split last line of its
output.  `vmRowLoop` is the `for v in values` loop updating the
`minvalues`, `maxvalues` and `total` lists; Python `list.insert(i, x)`
with `i ≥ len` appends, which is how the lists grow on the first host.
(When `len(total) < i` strictly, the Python code would raise
`IndexError` at `total[i] += vInt`; the embedding's `set`/`getD` are
no-ops there, and no theorem below depends on that region.)
The `fieldWidths` bookkeeping only affects column padding, not the
statistics, and is omitted. -/

def vmRowLoop : List String → Nat → List Int → List Int → List Int →
    List Int × List Int × List Int
  | [], _, mins, maxs, tots => (mins, maxs, tots)
  | v :: vs, i, mins, maxs, tots =>
    match getInt v with
    | none => vmRowLoop vs (i + 1) mins maxs tots
    | some n =>
      let mins' :=
        if mins.length ≤ i then mins ++ [n]
        else if mins.getD i 0 > n then mins.set i n else mins
      let maxs' :=
        if maxs.length ≤ i then maxs ++ [n]
        else if maxs.getD i 0 < n then maxs.set i n else maxs
      let tots0 := if tots.length ≤ i then tots ++ [0] else tots
      let tots' := tots0.set i (tots0.getD i 0 + n)
      vmRowLoop vs (i + 1) mins' maxs' tots'

/-- `output[-1].split()` (`output` is nonempty whenever a host reported). -/
def lastLineTokens (out : List String) : List String :=
  pySplit (out.getLast?.getD "")

/-- The `for cell in outputMap.keys()` fold accumulating the three
statistics lists (min/max/sum are insensitive to dictionary order). -/
def vmStatsFold (rows : List (List String)) : List Int × List Int × List Int :=
  rows.foldl (fun acc toks => vmRowLoop toks 0 acc.1 acc.2.1 acc.2.2) ([], [], [])

/-- The statistics lists computed by `listVmstatResults` from an output
dictionary. -/
def vmStatsOf (outputMap : List (String × List String)) :
    List Int × List Int × List Int :=
  vmStatsFold (outputMap.map (fun p => lastLineTokens p.2))

/-- The `Average` row: `int(round(v / outputCount))` — in Python 2 the
integer division `v / outputCount` already floors, and `round`/`int` of
an integer are the identity, so each entry is the floor quotient. -/
def vmAverages (tots : List Int) (outputCount : Nat) : List Int :=
  tots.map (fun v => Int.fdiv v (outputCount : Int))

/-- The Minimum/Maximum/Average rows are printed only under
`if outputCount > 1`. -/
def vmStatsRowsShown (outputCount : Nat) : Bool :=
  outputCount > 1

/-! Specification-side per-column descriptions, used to characterise the
fold above. -/

/-- Column `i` of a list of integer rows. -/
def colVals (vals : List (List Int)) (i : Nat) : List Int :=
  vals.map (fun r => r.getD i 0)

/-- Least value of a nonempty list (0 on the empty list). -/
def listMinimum : List Int → Int
  | [] => 0
  | a :: l => l.foldl min a

/-- Greatest value of a nonempty list (0 on the empty list). -/
def listMaximum : List Int → Int
  | [] => 0
  | a :: l => l.foldl max a

/-- Sum of a list of integers. -/
def listSum (l : List Int) : Int :=
  l.foldl (· + ·) 0

/-- Modelled from the spec: "the Average is the rounded quotient of the
column sum by the number of reporting hosts" — `round(sum / count)` with
true division and Python's round-half-away-from-zero, written for
nonnegative sums as `⌊(2·sum + count) / (2·count)⌋`. -/
def specRoundedAvg (sum : Int) (count : Nat) : Int :=
  Int.fdiv (2 * sum + (count : Int)) (2 * (count : Int))

/-! ### Exit-code aggregation in main (src/dcli.py lines 1066-1202)

`main` returns 2 from the `UsageError`, `Error` and `IOError` handlers;
otherwise `returnValue` starts at 0, becomes 1 when some cells are
unreachable, is folded through `max(statusMap.values() + [returnValue])`
after every batch, and the final `return returnValue and 1` collapses
any truthy value to 1. -/

inductive MainErr | usageErr | envErr | ioErr
deriving DecidableEq, Repr

/-- Python `returnValue and 1`: 0 is falsy, anything else yields 1. -/
def pyAndOne (rv : Int) : Int :=
  if rv = 0 then 0 else 1

/-- The status aggregation of `main`'s batch loop: `badCells` is the
unreachable list, `batchStats` the per-batch lists of per-host final
statuses. -/
def mainReturnValue (badCells : List String) (batchStats : List (List Int)) : Int :=
  let rv0 : Int := if badCells.isEmpty then 0 else 1
  let rv := batchStats.foldl (fun acc batch => batch.foldl max acc) rv0
  pyAndOne rv

/-- The program exit code: 2 from the error handlers, otherwise the
aggregated return value. -/
def mainExitCode : Option MainErr → List String → List (List Int) → Int
  | some _, _, _ => 2
  | none, bad, stats => mainReturnValue bad stats

/-! ## Theorems -/

/-! ### C8: buildCellList -/

theorem foldl_insertUniq : ∀ (l acc : List String),
    l.foldl insertUniq acc = acc ++ dedupFirst (l.filter (fun b => decide (b ∉ acc)))
  | [], acc => by simp [dedupFirst]
  | a :: l, acc => by
    by_cases h : a ∈ acc
    · have h1 : insertUniq acc a = acc := by simp [insertUniq, h]
      have h2 : (a :: l).filter (fun b => decide (b ∉ acc))
          = l.filter (fun b => decide (b ∉ acc)) := by
        simp [List.filter_cons, h]
      rw [List.foldl_cons, h1, h2, foldl_insertUniq l acc]
    · have h1 : insertUniq acc a = acc ++ [a] := by simp [insertUniq, h]
      have h2 : (a :: l).filter (fun b => decide (b ∉ acc))
          = a :: l.filter (fun b => decide (b ∉ acc)) := by
        simp [List.filter_cons, h]
      have h3 : l.filter (fun b => decide (b ∉ acc ++ [a]))
          = (l.filter (fun b => decide (b ∉ acc))).filter (fun b => decide (b ≠ a)) := by
        rw [List.filter_filter]
        apply List.filter_congr
        intro b _
        by_cases hba : b = a <;> by_cases hbc : b ∈ acc <;>
          simp [hba, hbc]
      rw [List.foldl_cons, h1, foldl_insertUniq l (acc ++ [a]), h2, h3]
      rw [dedupFirst]
      simp [List.append_assoc]

theorem foldl_insertUniq_nodup : ∀ (l acc : List String),
    acc.Nodup → (l.foldl insertUniq acc).Nodup
  | [], _, h => h
  | a :: l, acc, h => by
    rw [List.foldl_cons]
    apply foldl_insertUniq_nodup l
    by_cases ha : a ∈ acc
    · simpa [insertUniq, ha] using h
    · simp [insertUniq, ha, List.nodup_append, h]

theorem mem_dedupFirst : ∀ (n : Nat) (l : List String), l.length ≤ n →
    ∀ c, (c ∈ dedupFirst l ↔ c ∈ l)
  | _, [], _, c => by simp [dedupFirst]
  | 0, a :: l, h, c => by simp at h
  | n + 1, a :: l, h, c => by
    have hlen : (l.filter (fun b => decide (b ≠ a))).length ≤ n :=
      le_trans (List.length_filter_le _ l) (Nat.le_of_succ_le_succ h)
    rw [dedupFirst]
    simp only [List.mem_cons, mem_dedupFirst n _ hlen c, List.mem_filter,
      decide_eq_true_eq]
    by_cases hc : c = a <;> simp [hc]

/-- C8: `buildCellList` returns the concatenation of the hosts read from
the group file (each line stripped, empty and `#` lines ignored)
followed by the inline entries (comma-split, pieces stripped), with
duplicates removed keeping the first occurrence: the result is exactly
the first-occurrence de-duplication of that concatenation, it has no
duplicates, and it contains exactly the hosts of the concatenation. -/
theorem buildCellList_spec (cellArgs : List String) (groupLines : Option (List String)) :
    buildCellList cellArgs groupLines
      = dedupFirst (groupHosts groupLines ++ inlineHosts cellArgs)
    ∧ (buildCellList cellArgs groupLines).Nodup
    ∧ (∀ c, c ∈ buildCellList cellArgs groupLines ↔
        c ∈ groupHosts groupLines ++ inlineHosts cellArgs) := by
  have h0 : buildCellList cellArgs groupLines
      = dedupFirst (groupHosts groupLines ++ inlineHosts cellArgs) := by
    have h1 := foldl_insertUniq (groupHosts groupLines ++ inlineHosts cellArgs) []
    simpa [buildCellList] using h1
  refine ⟨h0, ?_, ?_⟩
  · exact foldl_insertUniq_nodup _ [] List.nodup_nil
  · intro c
    rw [h0]
    exact mem_dedupFirst (groupHosts groupLines ++ inlineHosts cellArgs).length _
      le_rfl c

/-! ### C2: checkVmstat -/

theorem getInt_flag_none : ∀ t ∈ vmFlagTokens, getInt t = none := by decide

theorem checkVmstatAux_flag_none :
    ∀ (toks : List String) (rpt dly : Option Int) (cmd : String),
      (∃ t ∈ toks, t ∈ vmFlagTokens) → (checkVmstatAux toks rpt dly cmd).1 = none
  | [], _, _, _, h => by simp at h
  | op :: rest, rpt, dly, cmd, h => by
    rcases h with ⟨t, ht, hflag⟩
    rcases List.mem_cons.mp ht with rfl | hrest
    · simp [checkVmstatAux, hflag]
    · have IH := fun rpt dly cmd =>
        checkVmstatAux_flag_none rest rpt dly cmd ⟨t, hrest, hflag⟩
      simp only [checkVmstatAux]
      split_ifs <;> simp [IH]

theorem checkVmstatAux_lt1_none :
    ∀ (toks : List String) (rpt dly : Option Int) (cmd : String) (t : String) (k : Int),
      t ∈ toks → getInt t = some k → k < 1 → (checkVmstatAux toks rpt dly cmd).1 = none
  | [], _, _, _, _, _, ht, _, _ => by simp at ht
  | op :: rest, rpt, dly, cmd, t, k, ht, hk, hlt => by
    rcases List.mem_cons.mp ht with rfl | hrest
    · have hnum : numLtOne (getInt t) = true := by
        rw [hk]; simpa [numLtOne] using hlt
      simp only [checkVmstatAux]
      split_ifs <;> simp_all
    · have IH := fun rpt dly cmd =>
        checkVmstatAux_lt1_none rest rpt dly cmd t k hrest hk hlt
      simp only [checkVmstatAux]
      split_ifs <;> simp [IH]

/-- 1 when an optional integer is Python-truthy, else 0. -/
def optBit (o : Option Int) : Nat :=
  if pyTruthy o then 1 else 0

theorem checkVmstatAux_many_nums_none :
    ∀ (toks : List String) (rpt dly : Option Int) (cmd : String),
      3 ≤ (toks.filter (fun t => (getInt t).isSome)).length + optBit rpt + optBit dly →
      (checkVmstatAux toks rpt dly cmd).1 = none
  | [], rpt, dly, _, h => by
    exfalso
    unfold optBit at h
    split_ifs at h <;> simp_all
  | op :: rest, rpt, dly, cmd, h => by
    by_cases hflag : op ∈ vmFlagTokens
    · simp [checkVmstatAux, hflag]
    · by_cases hlt : numLtOne (getInt op) = true
      · simp [checkVmstatAux, hflag, hlt]
      · by_cases hnum : pyTruthy (getInt op) = true
        · have hsome : (getInt op).isSome = true := by
            cases hg : getInt op <;> simp [hg, pyTruthy] at hnum ⊢
          have hcount : (List.filter (fun t => (getInt t).isSome) (op :: rest)).length
              = (List.filter (fun t => (getInt t).isSome) rest).length + 1 := by
            simp [List.filter_cons, hsome]
          by_cases hrpt : pyTruthy rpt = true
          · simp [checkVmstatAux, hflag, hlt, hnum, hrpt]
          · have hrpt' : pyTruthy rpt = false := by simpa using hrpt
            by_cases hdly : pyTruthy dly = true
            · have hrec : 3 ≤ (rest.filter (fun t => (getInt t).isSome)).length
                  + optBit (getInt op) + optBit dly := by
                rw [hcount] at h
                simp only [optBit, hnum, hdly, hrpt', if_true, if_false,
                  Bool.false_eq_true] at h ⊢
                omega
              simp [checkVmstatAux, hflag, hlt, hnum, hrpt', hdly,
                checkVmstatAux_many_nums_none rest (getInt op) dly cmd hrec]
            · have hdly' : pyTruthy dly = false := by simpa using hdly
              have hrec : 3 ≤ (rest.filter (fun t => (getInt t).isSome)).length
                  + optBit rpt + optBit (getInt op) := by
                rw [hcount] at h
                simp only [optBit, hnum, hdly', hrpt', if_true, if_false,
                  Bool.false_eq_true] at h ⊢
                omega
              simp [checkVmstatAux, hflag, hlt, hnum, hrpt', hdly',
                checkVmstatAux_many_nums_none rest rpt (getInt op) cmd hrec]
        · have hnone : getInt op = none := by
            cases hg : getInt op with
            | none => rfl
            | some k =>
              rw [hg] at hlt hnum
              simp [numLtOne] at hlt
              simp [pyTruthy] at hnum
              omega
          have hcount : (List.filter (fun t => (getInt t).isSome) (op :: rest)).length
              = (List.filter (fun t => (getInt t).isSome) rest).length := by
            simp [List.filter_cons, hnone]
          have hrec : 3 ≤ (rest.filter (fun t => (getInt t).isSome)).length
              + optBit rpt + optBit dly := by omega
          have IH := fun cmd => checkVmstatAux_many_nums_none rest rpt dly cmd hrec
          have h1 : numLtOne (getInt op) = false := by simpa using hlt
          have h2 : pyTruthy (getInt op) = false := by simpa using hnum
          by_cases hn : op = "-n"
          · subst hn
            simp [checkVmstatAux, hflag, h1, h2, IH]
          · simp [checkVmstatAux, hflag, h1, h2, hn, IH]

/-- C2 counterexample: for the empty option string the returned command
is `"vmstat 1 "`, which does contain a numeric delay argument — the
claim's "no delay in the command" for the blank option fails. -/
theorem checkVmstat_blank_has_delay :
    (checkVmstat "").2 = some "vmstat 1 "
    ∧ ((pySplit "vmstat 1 ").any (fun t => (getInt t).isSome)) = true := by
  decide

/-- C2 (amended): the blank option yields repeat 1 and command
`"vmstat 1 "` (a unit delay is appended, which — together with the
sample count appended by the caller — produces one immediate sample);
one number `n ≥ 1` yields delay `n` and repeat `-1`; two numbers
`d c ≥ 1` yield delay `d` and repeat `c`; a non-periodic flag, a number
below 1, or more than two numbers yield a `none` repeat count. -/
theorem checkVmstat_spec (opts : String) :
    (pySplit opts = [] → checkVmstat opts = (some 1, some "vmstat 1 "))
    ∧ (∀ t n, pySplit opts = [t] → getInt t = some n → 1 ≤ n →
        checkVmstat opts = (some (-1), some ("vmstat " ++ toString n ++ " ")))
    ∧ (∀ t1 t2 d c, pySplit opts = [t1, t2] → getInt t1 = some d →
        getInt t2 = some c → 1 ≤ d → 1 ≤ c →
        checkVmstat opts = (some c, some ("vmstat " ++ toString d ++ " ")))
    ∧ ((∃ t ∈ pySplit opts, t ∈ vmFlagTokens) → (checkVmstat opts).1 = none)
    ∧ ((∃ t ∈ pySplit opts, ∃ k, getInt t = some k ∧ k < 1) →
        (checkVmstat opts).1 = none)
    ∧ (3 ≤ ((pySplit opts).filter (fun t => (getInt t).isSome)).length →
        (checkVmstat opts).1 = none) := by
  refine ⟨?_, ?_, ?_, ?_, ?_, ?_⟩
  · intro h
    unfold checkVmstat
    rw [h]
    rfl
  · intro t n hsplit hg hn
    have hflag : t ∉ vmFlagTokens := by
      intro hmem
      rw [getInt_flag_none t hmem] at hg
      cases hg
    have hnlt : numLtOne (getInt t) = false := by
      simp only [hg, numLtOne]
      simpa using hn
    have htr : pyTruthy (getInt t) = true := by
      simp only [hg, pyTruthy]
      simpa using (by omega : n ≠ 0)
    unfold checkVmstat
    rw [hsplit]
    simp [checkVmstatAux, hflag, hnlt, htr, hg, pyTruthy, numLtOne]
    simp [show ¬n < 1 by omega, show ¬n = 0 by omega]
  · intro t1 t2 d c hsplit hg1 hg2 hd hc
    have hflag1 : t1 ∉ vmFlagTokens := by
      intro hmem
      rw [getInt_flag_none t1 hmem] at hg1
      cases hg1
    have hflag2 : t2 ∉ vmFlagTokens := by
      intro hmem
      rw [getInt_flag_none t2 hmem] at hg2
      cases hg2
    have hnlt1 : numLtOne (getInt t1) = false := by
      simp only [hg1, numLtOne]
      simpa using hd
    have hnlt2 : numLtOne (getInt t2) = false := by
      simp only [hg2, numLtOne]
      simpa using hc
    have htr1 : pyTruthy (getInt t1) = true := by
      simp only [hg1, pyTruthy]
      simpa using (by omega : d ≠ 0)
    have htr2 : pyTruthy (getInt t2) = true := by
      simp only [hg2, pyTruthy]
      simpa using (by omega : c ≠ 0)
    unfold checkVmstat
    rw [hsplit]
    simp [checkVmstatAux, hflag1, hflag2, hnlt1, hnlt2, htr1, htr2, hg1, hg2,
      pyTruthy, numLtOne]
    simp [show ¬d < 1 by omega, show ¬c < 1 by omega,
      show ¬d = 0 by omega, show ¬c = 0 by omega]
  · exact fun h => checkVmstatAux_flag_none _ none none _ h
  · intro h
    rcases h with ⟨t, ht, k, hk, hlt⟩
    exact checkVmstatAux_lt1_none _ none none _ t k ht hk hlt
  · intro h
    apply checkVmstatAux_many_nums_none
    simpa [optBit, pyTruthy] using h

/-- C2 witness: the concrete instances of the amended theorem. -/
theorem checkVmstat_spec_witness :
    checkVmstat "" = (some 1, some "vmstat 1 ")
    ∧ checkVmstat "3" = (some (-1), some ("vmstat " ++ toString (3 : Int) ++ " "))
    ∧ checkVmstat "3 10" = (some 10, some ("vmstat " ++ toString (3 : Int) ++ " "))
    ∧ (checkVmstat "-s").1 = none
    ∧ (checkVmstat "0").1 = none
    ∧ (checkVmstat "1 2 3").1 = none := by
  refine ⟨(checkVmstat_spec "").1 (by decide),
    (checkVmstat_spec "3").2.1 "3" 3 (by decide) (by decide) (by decide),
    (checkVmstat_spec "3 10").2.2.1 "3" "10" 3 10 (by decide) (by decide)
      (by decide) (by decide) (by decide),
    (checkVmstat_spec "-s").2.2.2.1 ⟨"-s", by decide, by decide⟩,
    (checkVmstat_spec "0").2.2.2.2.1 ⟨"0", by decide, 0, by decide, by decide⟩,
    (checkVmstat_spec "1 2 3").2.2.2.2.2 (by decide)⟩

/-! ### C10: command quoting -/

theorem toList_asString (cs : List Char) : (cs.asString).toList = cs := rfl

theorem cons_asString_ne_empty (c : Char) (cs : List Char) :
    (c :: cs).asString ≠ "" := by
  intro h
  have h2 := congrArg String.toList h
  rw [toList_asString] at h2
  cases h2

theorem escSingleChars_noNewline : ∀ cs : List Char,
    noNewline cs = true → noNewline (escSingleChars cs) = true
  | [], _ => rfl
  | c :: cs, h => by
    simp only [noNewline, List.all_cons, Bool.and_eq_true] at h
    have IH := escSingleChars_noNewline cs (by simpa [noNewline] using h.2)
    by_cases h39 : c.toNat = 39
    · simp only [escSingleChars, h39, if_true, noNewline, List.all_cons,
        Bool.and_eq_true]
      exact ⟨by decide, by decide, by decide, by decide,
        by simpa [noNewline] using IH⟩
    · simp only [escSingleChars, h39, if_false, noNewline, List.all_cons,
        Bool.and_eq_true]
      exact ⟨h.1, by simpa [noNewline] using IH⟩

theorem reMatchWrapped_quoted (s : String) (h : noNewline s.toList = true) :
    reMatchWrapped 39
      ((Char.ofNat 39 :: (escSingleChars s.toList ++ [Char.ofNat 39])).asString)
      = true := by
  have hesc := escSingleChars_noNewline s.toList h
  simp only [reMatchWrapped, toList_asString, wrappedTail, List.reverse_append,
    List.reverse_cons, List.reverse_nil, List.nil_append, List.singleton_append]
  simp only [Bool.and_eq_true, Bool.or_eq_true]
  refine ⟨by decide, Or.inl ⟨by decide, ?_⟩⟩
  simpa [noNewline, List.all_reverse] using hesc

/-- C10 counterexample: the quoting transformation is not idempotent on
a command containing a newline — the already-quoted test `^'.*'$` fails
across the newline (Python `.` does not match newlines), so the second
application quotes again. -/
theorem quoteCommand_not_idempotent :
    quoteCommand (quoteCommand "a\nb") ≠ quoteCommand "a\nb" := by decide

/-- C10 (amended): for a command containing no newline character, the
normalisation passes a command already entirely enclosed in single or
double quotes (in the sense of the `^'.*'$` / `^".*"$` tests) through
unchanged, otherwise escapes every embedded single quote and wraps the
command in single quotes, and it is idempotent.  (A command containing
a newline defeats the enclosure test and is re-quoted, as the
counterexample shows.) -/
theorem quoteCommand_spec (s : String) (hnl : noNewline s.toList = true) :
    ((reMatchWrapped 39 s = true ∨ reMatchWrapped 34 s = true) →
      quoteCommand s = s)
    ∧ (s ≠ "" → ¬(reMatchWrapped 39 s = true ∨ reMatchWrapped 34 s = true) →
        quoteCommand s =
          (Char.ofNat 39 :: (escSingleChars s.toList ++ [Char.ofNat 39])).asString)
    ∧ quoteCommand (quoteCommand s) = quoteCommand s := by
  refine ⟨?_, ?_, ?_⟩
  · intro hm
    unfold quoteCommand
    rw [if_neg]
    intro hcond
    exact hcond.2 hm
  · intro hne hm
    unfold quoteCommand
    rw [if_pos ⟨hne, hm⟩]
  · by_cases hm : reMatchWrapped 39 s = true ∨ reMatchWrapped 34 s = true
    · have h1 : quoteCommand s = s := by
        unfold quoteCommand
        rw [if_neg]
        intro hcond
        exact hcond.2 hm
      rw [h1, h1]
    · by_cases hne : s = ""
      · subst hne
        rfl
      · have h1 : quoteCommand s =
            (Char.ofNat 39 :: (escSingleChars s.toList ++ [Char.ofNat 39])).asString := by
          unfold quoteCommand
          rw [if_pos ⟨hne, hm⟩]
        rw [h1]
        have hq := reMatchWrapped_quoted s hnl
        unfold quoteCommand
        rw [if_neg]
        intro hcond
        exact hcond.2 (Or.inl hq)

/-- C10 witness: idempotence on a plain command, and pass-through of a
command already wrapped in single quotes (the three characters
quote-`a`-quote). -/
theorem quoteCommand_spec_witness :
    quoteCommand (quoteCommand "ls -l") = quoteCommand "ls -l"
    ∧ quoteCommand ([Char.ofNat 39, Char.ofNat 97, Char.ofNat 39].asString)
        = [Char.ofNat 39, Char.ofNat 97, Char.ofNat 39].asString :=
  ⟨(quoteCommand_spec "ls -l" (by decide)).2.2,
    (quoteCommand_spec ([Char.ofNat 39, Char.ofNat 97, Char.ofNat 39].asString)
      (by decide)).1 (Or.inl (by decide))⟩

/-! ### C1: the per-host pipeline -/

theorem stepRun_skip (runner : Step → Int × List String) (st : HostRun)
    (e : Bool) (s : Step) (h : st.status ≠ 0) : stepRun runner st e s = st := by
  simp [stepRun, h]

theorem stepRun_trace_cases (runner : Step → Int × List String) (st : HostRun)
    (e : Bool) (s : Step) :
    stepRun runner st e s = st ∨
      ((stepRun runner st e s).trace = st.trace ++ [s] ∧ st.status = 0) := by
  unfold stepRun
  split_ifs with h
  · right
    simp only [Bool.and_eq_true, beq_iff_eq] at h
    exact ⟨rfl, h.1⟩
  · left
    rfl

theorem stepRun_trace_extend (runner : Step → Int × List String) (st : HostRun)
    (e : Bool) (s : Step) : ∃ t, (stepRun runner st e s).trace = st.trace ++ t := by
  unfold stepRun
  split_ifs
  · exact ⟨[s], rfl⟩
  · exact ⟨[], by simp⟩

theorem stepRun_sublist (runner : Step → Int × List String) (st : HostRun)
    (e : Bool) (s : Step) (l : List Step) (h : st.trace.Sublist l) :
    (stepRun runner st e s).trace.Sublist (l ++ [s]) := by
  rcases stepRun_trace_cases runner st e s with heq | ⟨ht, _⟩
  · rw [heq]
    exact h.trans (List.sublist_append_left l [s])
  · rw [ht]
    exact List.Sublist.append h (List.Sublist.refl [s])

/-- The run invariant: whenever the running status is zero every
attempted step succeeded, and every attempted step other than the last
one succeeded. -/
def RunInv (runner : Step → Int × List String) (st : HostRun) : Prop :=
  (st.status = 0 → ∀ x ∈ st.trace, (runner x).1 = 0)
    ∧ (∀ x ∈ st.trace.dropLast, (runner x).1 = 0)

theorem stepRun_inv (runner : Step → Int × List String) (st : HostRun)
    (e : Bool) (s : Step) (h : RunInv runner st) :
    RunInv runner (stepRun runner st e s) := by
  unfold stepRun
  split_ifs with hc
  · simp only [Bool.and_eq_true, beq_iff_eq] at hc
    constructor
    · intro hs x hx
      simp only [List.mem_append, List.mem_singleton] at hx
      rcases hx with hx | rfl
      · exact h.1 hc.1 x hx
      · exact hs
    · intro x hx
      rw [List.dropLast_concat] at hx
      exact h.1 hc.1 x hx
  · exact h

theorem inv_last_of_fail (runner : Step → Int × List String) (st : HostRun)
    (hinv : RunInv runner st) (s : Step) (hs : s ∈ st.trace)
    (hf : (runner s).1 ≠ 0) : st.trace.getLast? = some s := by
  have hne : st.trace ≠ [] := by
    intro h
    rw [h] at hs
    cases hs
  have hdec := List.dropLast_append_getLast hne
  rw [← hdec] at hs
  rcases List.mem_append.mp hs with hx | hx
  · exact absurd (hinv.2 s hx) hf
  · rcases List.mem_singleton.mp hx with rfl
    exact (List.getLast?_eq_getLast _ hne).symm ▸ rfl

/-- C1: the per-host pipeline attempts steps only in the fixed order
key-push, copy, command, key-drop (the trace is a sublist of that
order); when the key-push step is configured it always runs first; a
step that returns non-zero status is the last step attempted; and a
host whose key-push step fails attempts nothing else. -/
theorem runHost_pipeline (cfg : JobCfg) (runner : Step → Int × List String) :
    (runHost cfg runner).trace.Sublist stepOrder
    ∧ ((cfg.hasKey && cfg.pushKey) = true →
        (runHost cfg runner).trace.head? = some Step.keyPush)
    ∧ (∀ s, s ∈ (runHost cfg runner).trace → (runner s).1 ≠ 0 →
        (runHost cfg runner).trace.getLast? = some s)
    ∧ ((cfg.hasKey && cfg.pushKey) = true → (runner Step.keyPush).1 ≠ 0 →
        (runHost cfg runner).trace = [Step.keyPush]) := by
  have hbase : runHost cfg runner =
      stepRun runner (stepRun runner (stepRun runner
        (if (cfg.hasKey && cfg.pushKey) = true then
          { status := (runner Step.keyPush).1, output := (runner Step.keyPush).2,
            trace := [Step.keyPush] }
         else { status := 0, output := [], trace := [] })
        cfg.hasFiles Step.copyStep) cfg.hasCommand Step.cmdStep)
        (cfg.hasKey && cfg.dropKey) Step.keyDrop := rfl
  refine ⟨?_, ?_, ?_, ?_⟩
  · -- trace is a sublist of the fixed order
    rw [hbase]
    have hb : (if (cfg.hasKey && cfg.pushKey) = true then
        ({ status := (runner Step.keyPush).1, output := (runner Step.keyPush).2,
           trace := [Step.keyPush] } : HostRun)
       else { status := 0, output := [], trace := [] }).trace.Sublist
        [Step.keyPush] := by
      split_ifs <;> simp
    have h2 := stepRun_sublist runner _ cfg.hasFiles Step.copyStep _ hb
    have h3 := stepRun_sublist runner _ cfg.hasCommand Step.cmdStep _ h2
    have h4 := stepRun_sublist runner _ (cfg.hasKey && cfg.dropKey) Step.keyDrop _ h3
    simpa [stepOrder] using h4
  · -- key-push runs first
    intro h1
    rw [hbase, if_pos h1]
    obtain ⟨t2, ht2⟩ := stepRun_trace_extend runner
      { status := (runner Step.keyPush).1, output := (runner Step.keyPush).2,
        trace := [Step.keyPush] } cfg.hasFiles Step.copyStep
    obtain ⟨t3, ht3⟩ := stepRun_trace_extend runner _ cfg.hasCommand Step.cmdStep
    obtain ⟨t4, ht4⟩ := stepRun_trace_extend runner _ (cfg.hasKey && cfg.dropKey)
      Step.keyDrop
    rw [ht4, ht3, ht2]
    simp
  · -- a failing step is the last one attempted
    intro s hs hf
    have hb_inv : RunInv runner
        (if (cfg.hasKey && cfg.pushKey) = true then
          ({ status := (runner Step.keyPush).1, output := (runner Step.keyPush).2,
             trace := [Step.keyPush] } : HostRun)
         else { status := 0, output := [], trace := [] }) := by
      split_ifs with h
      · refine ⟨?_, ?_⟩
        · intro h0 x hx
          rcases List.mem_singleton.mp hx with rfl
          exact h0
        · intro x hx
          simp at hx
      · exact ⟨fun _ x hx => by simp at hx, fun x hx => by simp at hx⟩
    have hinv := stepRun_inv runner _ (cfg.hasKey && cfg.dropKey) Step.keyDrop
      (stepRun_inv runner _ cfg.hasCommand Step.cmdStep
        (stepRun_inv runner _ cfg.hasFiles Step.copyStep hb_inv))
    rw [hbase] at hs ⊢
    exact inv_last_of_fail runner _ hinv s hs hf
  · -- key-push failure stops everything
    intro h1 hf
    rw [hbase, if_pos h1]
    rw [stepRun_skip runner _ cfg.hasFiles Step.copyStep hf]
    rw [stepRun_skip runner _ cfg.hasCommand Step.cmdStep hf]
    rw [stepRun_skip runner _ (cfg.hasKey && cfg.dropKey) Step.keyDrop hf]

/-- Concrete configuration for the C1 witness: all steps configured. -/
def cfgW : JobCfg :=
  { hasKey := true, pushKey := true, hasFiles := true, hasCommand := true,
    dropKey := true }

/-- Concrete runner for the C1 witness: the key-push step fails with
status 1, every other step succeeds. -/
def runW : Step → Int × List String :=
  fun s => (if s = Step.keyPush then 1 else 0, [])

/-- C1 witness: with every step configured and a failing key-push, the
pipeline starts with key-push and attempts nothing else. -/
theorem runHost_pipeline_witness :
    (runHost cfgW runW).trace.head? = some Step.keyPush
    ∧ (runHost cfgW runW).trace.getLast? = some Step.keyPush
    ∧ (runHost cfgW runW).trace = [Step.keyPush] :=
  ⟨(runHost_pipeline cfgW runW).2.1 rfl,
    (runHost_pipeline cfgW runW).2.2.1 Step.keyPush (by decide) (by decide),
    (runHost_pipeline cfgW runW).2.2.2 rfl (by decide)⟩

/-! ### C3: exit codes -/

theorem le_foldl_max (l : List Int) (a : Int) : a ≤ l.foldl max a := by
  induction l generalizing a with
  | nil => exact le_refl a
  | cons x l ih => exact le_trans (le_max_left a x) (ih (max a x))

theorem mem_le_foldl_max (l : List Int) (a x : Int) (hx : x ∈ l) :
    x ≤ l.foldl max a := by
  induction l generalizing a with
  | nil => cases hx
  | cons y l ih =>
    rcases List.mem_cons.mp hx with rfl | h
    · exact le_trans (le_max_right a x) (le_foldl_max l (max a x))
    · exact ih (max a y) h

theorem foldl_max_cases (l : List Int) (a : Int) :
    l.foldl max a = a ∨ l.foldl max a ∈ l := by
  induction l generalizing a with
  | nil => exact Or.inl rfl
  | cons x l ih =>
    rw [List.foldl_cons]
    rcases ih (max a x) with h | h
    · rcases le_total a x with hax | hxa
      · right
        rw [h, max_eq_right hax]
        exact List.mem_cons_self x l
      · left
        rw [h, max_eq_left hxa]
    · exact Or.inr (List.mem_cons_of_mem x h)

theorem batches_le_foldl (stats : List (List Int)) (a : Int) :
    a ≤ stats.foldl (fun acc batch => batch.foldl max acc) a := by
  induction stats generalizing a with
  | nil => exact le_refl a
  | cons b stats ih => exact le_trans (le_foldl_max b a) (ih (b.foldl max a))

theorem batches_mem_le_foldl (stats : List (List Int)) (a x : Int)
    (hx : ∃ b ∈ stats, x ∈ b) :
    x ≤ stats.foldl (fun acc batch => batch.foldl max acc) a := by
  induction stats generalizing a with
  | nil => simp at hx
  | cons b stats ih =>
    rcases hx with ⟨b', hb', hxb⟩
    rcases List.mem_cons.mp hb' with rfl | hmem
    · exact le_trans (mem_le_foldl_max b' a x hxb) (batches_le_foldl stats _)
    · exact ih (b.foldl max a) ⟨b', hmem, hxb⟩

theorem batches_foldl_cases (stats : List (List Int)) (a : Int) :
    stats.foldl (fun acc batch => batch.foldl max acc) a = a
      ∨ ∃ b ∈ stats, stats.foldl (fun acc batch => batch.foldl max acc) a ∈ b := by
  induction stats generalizing a with
  | nil => exact Or.inl rfl
  | cons b stats ih =>
    rw [List.foldl_cons]
    rcases ih (b.foldl max a) with h | h
    · rw [h]
      rcases foldl_max_cases b a with hb | hb
      · exact Or.inl hb
      · exact Or.inr ⟨b, List.mem_cons_self b stats, hb⟩
    · rcases h with ⟨b', hb', hxb⟩
      exact Or.inr ⟨b', List.mem_cons_of_mem b hb', hxb⟩

/-- C3 counterexample: a per-host final status of −1 (a child process
killed by a signal) is non-zero, yet the exit code is 0, because the
aggregation takes `max` with the initial 0. -/
theorem mainExitCode_negative_status :
    mainExitCode none [] [[-1]] = 0 ∧ (-1 : Int) ≠ 0 := by decide

/-- C3 (amended): the exit code is 2 when a usage, environment or I/O
error aborted the run; otherwise it is 0 exactly when no host was
unreachable and no per-host final status is positive, and 1 exactly
when some host was unreachable or some per-host final status is
positive.  (A negative status — a locally signalled child — does not
raise the exit code, which is why "non-zero" must read "positive".) -/
theorem mainExitCode_spec (err : Option MainErr) (bad : List String)
    (stats : List (List Int)) :
    (err ≠ none → mainExitCode err bad stats = 2)
    ∧ (err = none →
        (mainExitCode err bad stats = 0 ↔
          bad = [] ∧ ∀ b ∈ stats, ∀ s ∈ b, s ≤ 0))
    ∧ (err = none →
        (mainExitCode err bad stats = 1 ↔
          (bad ≠ [] ∨ ∃ b ∈ stats, ∃ s ∈ b, 0 < s))) := by
  rcases err with _ | e
  · have hrvz : (if bad.isEmpty then (0 : Int) else 1) = 0 ↔ bad = [] := by
      split_ifs with h
      · simp only [List.isEmpty_iff] at h
        simp [h]
      · simp only [List.isEmpty_iff] at h
        simp [h]
    have hrv_zero : stats.foldl (fun acc batch => batch.foldl max acc)
          (if bad.isEmpty then (0 : Int) else 1) = 0 ↔
        bad = [] ∧ ∀ b ∈ stats, ∀ s ∈ b, s ≤ 0 := by
      constructor
      · intro h
        have h1 := batches_le_foldl stats (if bad.isEmpty then (0 : Int) else 1)
        have h2 : (0 : Int) ≤ (if bad.isEmpty then (0 : Int) else 1) := by
          split_ifs <;> norm_num
        refine ⟨hrvz.mp (by omega), ?_⟩
        intro b hb' s hs
        have := batches_mem_le_foldl stats
          (if bad.isEmpty then (0 : Int) else 1) s ⟨b, hb', hs⟩
        omega
      · rintro ⟨hb, hall⟩
        rw [hrvz.mpr hb]
        have hge := batches_le_foldl stats (0 : Int)
        rcases batches_foldl_cases stats (0 : Int) with h | ⟨b, hbmem, hmem⟩
        · exact h
        · have := hall b hbmem _ hmem
          omega
    have hpz : ∀ rv : Int, pyAndOne rv = 0 ↔ rv = 0 := by
      intro rv
      unfold pyAndOne
      split_ifs with h
      · simp [h]
      · simp [h]
    have hpv : ∀ rv : Int, pyAndOne rv = 0 ∨ pyAndOne rv = 1 := by
      intro rv
      unfold pyAndOne
      split_ifs <;> simp
    have hzero : mainExitCode none bad stats = 0 ↔
        bad = [] ∧ ∀ b ∈ stats, ∀ s ∈ b, s ≤ 0 := by
      simp only [mainExitCode, mainReturnValue]
      rw [hpz]
      exact hrv_zero
    have honeval : mainExitCode none bad stats = 0
        ∨ mainExitCode none bad stats = 1 := by
      simp only [mainExitCode, mainReturnValue]
      exact hpv _
    have hnotiff : ¬(bad = [] ∧ ∀ b ∈ stats, ∀ s ∈ b, s ≤ 0) ↔
        (bad ≠ [] ∨ ∃ b ∈ stats, ∃ s ∈ b, 0 < s) := by
      rw [not_and_or]
      constructor
      · rintro (h | h)
        · exact Or.inl h
        · right
          push_neg at h
          rcases h with ⟨b, hb, s, hs, hpos⟩
          exact ⟨b, hb, s, hs, hpos⟩
      · rintro (h | h)
        · exact Or.inl h
        · right
          push_neg
          rcases h with ⟨b, hb, s, hs, hpos⟩
          exact ⟨b, hb, s, hs, hpos⟩
    refine ⟨fun h => absurd rfl h, fun _ => hzero, fun _ => ?_⟩
    constructor
    · intro h1
      apply hnotiff.mp
      intro hconj
      have h0 := hzero.mpr hconj
      omega
    · intro h
      rcases honeval with h0 | h1
      · exact absurd (hzero.mp h0) (hnotiff.mpr h)
      · exact h1
  · exact ⟨fun _ => rfl, fun h => Option.noConfusion h, fun h => Option.noConfusion h⟩

/-- C3 witness: error exit 2; all-zero statuses exit 0; an unreachable
host forces exit 1. -/
theorem mainExitCode_spec_witness :
    mainExitCode (some MainErr.usageErr) [] [] = 2
    ∧ mainExitCode none [] [[0, 0], [0]] = 0
    ∧ mainExitCode none ["h"] [[0]] = 1 :=
  ⟨(mainExitCode_spec (some MainErr.usageErr) [] []).1 (by simp),
    ((mainExitCode_spec none [] [[0, 0], [0]]).2.1 rfl).mpr ⟨rfl, by decide⟩,
    ((mainExitCode_spec none ["h"] [[0]]).2.2 rfl).mpr (Or.inl (by simp))⟩

/-! ### C4: output truncation -/

theorem readNLinesAux_trunc (maxLines : Nat) :
    ∀ (lines : List String) (i : Nat) (acc : List String),
      i ≤ maxLines → maxLines < i + lines.length →
      readNLinesAux maxLines false lines i acc =
        ⟨[], [acc ++ lines.take (maxLines + 1 - i)], true, 1⟩
  | [], i, acc, hle, hlt => by
    simp only [List.length_nil, Nat.add_zero] at hlt
    omega
  | l :: rest, i, acc, hle, hlt => by
    by_cases hc : i + 1 > maxLines
    · have hi : maxLines + 1 - i = 1 := by omega
      rw [readNLinesAux]
      simp [hc, hi]
    · have hrec := readNLinesAux_trunc maxLines rest (i + 1) (acc ++ [l])
        (by omega) (by simp only [List.length_cons] at hlt; omega)
      rw [readNLinesAux]
      simp only [hc, if_false]
      rw [hrec]
      have htake : (l :: rest).take (maxLines + 1 - i)
          = l :: rest.take (maxLines + 1 - (i + 1)) := by
        have h1 : maxLines + 1 - i = (maxLines + 1 - (i + 1)) + 1 := by omega
        rw [h1]
        rfl
      rw [htake]
      simp [List.append_assoc]

/-- C4 counterexample: in serialized mode (or with a single cell) an
output exceeding the maximum line count is flushed in chunks — the
status is not forced, no truncation warning is produced. -/
theorem readNLines_serialized_no_truncation :
    1 < (["a", "b", "c"] : List String).length
    ∧ readNLines 1 true 2 ["a", "b", "c"] = ⟨["c"], [["a", "b"]], false, 0⟩
    ∧ runCommandStatus 0 (readNLines 1 true 2 ["a", "b", "c"]) = 0 := by
  decide

/-- C4 (amended): in parallel mode over multiple cells (serialize off
and more than one cell), when a host's output exceeds the configured
maximum line count the reported status is forced to 1 even when the
child exited with 0, the truncation warning is emitted exactly once,
and the accumulated lines (the first `maxLines + 1`) are flushed to the
caller before reading stops. -/
theorem readNLines_truncation (maxLines : Nat) (numCells : Nat)
    (lines : List String) (childStatus : Int) (hcells : numCells ≠ 1)
    (hexceed : maxLines < lines.length) :
    readNLines maxLines false numCells lines
      = ⟨[], [lines.take (maxLines + 1)], true, 1⟩
    ∧ (readNLines maxLines false numCells lines).warnCount = 1
    ∧ runCommandStatus childStatus (readNLines maxLines false numCells lines) = 1 := by
  have hbeq : (numCells == 1) = false := by
    simpa using hcells
  have h0 : readNLines maxLines false numCells lines
      = readNLinesAux maxLines false lines 0 [] := by
    simp [readNLines, hbeq]
  have h1 := readNLinesAux_trunc maxLines lines 0 []
    (Nat.zero_le _) (by simpa using hexceed)
  rw [h0, h1]
  simp [runCommandStatus]

/-- C4 witness: three lines against a one-line cap with two cells. -/
theorem readNLines_truncation_witness :
    readNLines 1 false 2 ["a", "b", "c"] = ⟨[], [["a", "b"]], true, 1⟩
    ∧ runCommandStatus 0 (readNLines 1 false 2 ["a", "b", "c"]) = 1 := by
  have h := readNLines_truncation 1 2 ["a", "b", "c"] 0 (by decide) (by decide)
  refine ⟨?_, h.2.2⟩
  rw [h.1]
  rfl

/-! ### C5: the reachability partition -/

theorem testCells_good (env : ProbeEnv) : ∀ cells : List String,
    (testCells env cells).1.map Prod.fst
      = cells.filter (fun c => (classifyCell env c).isSome)
  | [] => rfl
  | c :: rest => by
    rw [testCells]
    cases h : classifyCell env c <;>
      simp [List.filter_cons, h, testCells_good env rest]

theorem testCells_bad (env : ProbeEnv) : ∀ cells : List String,
    (testCells env cells).2
      = cells.filter (fun c => !(classifyCell env c).isSome)
  | [] => rfl
  | c :: rest => by
    rw [testCells]
    cases h : classifyCell env c <;>
      simp [List.filter_cons, h, testCells_bad env rest]

theorem testCells_addr (env : ProbeEnv) : ∀ (cells : List String),
    ∀ p ∈ (testCells env cells).1, classifyCell env p.1 = some p.2
  | [], p, hp => by simp [testCells] at hp
  | c :: rest, p, hp => by
    rw [testCells] at hp
    cases h : classifyCell env c with
    | some a =>
      rw [h] at hp
      rcases List.mem_cons.mp hp with rfl | hmem
      · exact h
      · exact testCells_addr env rest p hmem
    | none =>
      rw [h] at hp
      exact testCells_addr env rest p hp

/-- C5: `testCells` partitions the de-duplicated input host list: the
reachable names together with the unreachable names are a permutation
of the input, no host is classified both ways, every reachable host is
paired with its resolved address, and on a duplicate-free input every
host occurs exactly once across the two lists.  Per-host resolution or
connect failures are totally handled by `classifyCell`; nothing
escapes. -/
theorem testCells_partition (env : ProbeEnv) (cells : List String) :
    ((testCells env cells).1.map Prod.fst ++ (testCells env cells).2).Perm cells
    ∧ (∀ c, ¬(c ∈ (testCells env cells).1.map Prod.fst
        ∧ c ∈ (testCells env cells).2))
    ∧ (∀ p ∈ (testCells env cells).1, classifyCell env p.1 = some p.2)
    ∧ (cells.Nodup → ∀ c ∈ cells,
        ((testCells env cells).1.map Prod.fst ++ (testCells env cells).2).count c
          = 1) := by
  have hperm : ((testCells env cells).1.map Prod.fst
      ++ (testCells env cells).2).Perm cells := by
    rw [testCells_good, testCells_bad]
    exact List.filter_append_perm _ cells
  refine ⟨hperm, ?_, testCells_addr env cells, ?_⟩
  · intro c ⟨hg, hb⟩
    rw [testCells_good] at hg
    rw [testCells_bad] at hb
    have h1 := (List.mem_filter.mp hg).2
    have h2 := (List.mem_filter.mp hb).2
    simp at h1 h2
    rw [h2] at h1
    cases h1
  · intro hnodup c hc
    rw [hperm.count_eq]
    exact List.count_eq_one_of_mem hnodup hc

/-- Concrete probe environment for the C5 witness: `"good"` resolves to
an IPv4 address and connects; everything else fails resolution. -/
def envW : ProbeEnv :=
  { resolve := fun c => if c = "good" then some [(AddrFamily.v4, 5)] else none,
    connectOk := fun _ => true,
    hasIpv6 := false }

/-- C5 witness: both hosts of a two-host list appear exactly once
across the reachable and unreachable lists. -/
theorem testCells_partition_witness :
    ((testCells envW ["good", "bad"]).1.map Prod.fst
      ++ (testCells envW ["good", "bad"]).2).count "good" = 1
    ∧ ((testCells envW ["good", "bad"]).1.map Prod.fst
      ++ (testCells envW ["good", "bad"]).2).count "bad" = 1 :=
  ⟨(testCells_partition envW ["good", "bad"]).2.2.2 (by decide) "good" (by decide),
    (testCells_partition envW ["good", "bad"]).2.2.2 (by decide) "bad" (by decide)⟩

/-! ### C6: canonical rendering order -/

theorem map_fst_pair (f : String → List String) (l : List String) :
    (l.map (fun c => (c, f c))).map Prod.fst = l := by
  induction l with
  | nil => rfl
  | cons a l ih => simp [ih]

/-- C6: the rendered per-cell blocks follow the order of the
de-duplicated input cell list (the body's cells are exactly the input
cells filtered by "has output" and the negatives guard, in input
order), and the rendering depends on the status/output dictionaries
only through lookup — two dictionaries with the same lookups (e.g. the
same entries added in a different order) render identically.  Since the
renderer is a pure function, rendering the same maps twice trivially
produces the same order. -/
theorem listResults_order (cells : List String) (sm sm' : List (String × Int))
    (om om' : List (String × List String)) (ln : Bool) (re? : Option REOracle) :
    ((listResults cells sm om ln re?).body.map Prod.fst
      = cells.filter (fun c =>
          (pyGet om c).isSome && (!ln || statusPosB (pyGet sm) c)))
    ∧ ((∀ c, pyGet sm c = pyGet sm' c) → (∀ c, pyGet om c = pyGet om' c) →
        listResults cells sm om ln re? = listResults cells sm' om' ln re?) := by
  constructor
  · exact map_fst_pair _ _
  · intro h1 h2
    unfold listResults
    rw [funext h1, funext h2]

/-- C6 witness: the same two entries inserted in opposite orders render
identically. -/
theorem listResults_order_witness :
    listResults ["b", "a"] [("a", 0), ("b", 1)] [("a", ["x"]), ("b", ["y"])]
        true none
      = listResults ["b", "a"] [("b", 1), ("a", 0)] [("b", ["y"]), ("a", ["x"])]
        true none := by
  apply (listResults_order ["b", "a"] [("a", 0), ("b", 1)] [("b", 1), ("a", 0)]
    [("a", ["x"]), ("b", ["y"])] [("b", ["y"]), ("a", ["x"])] true none).2
  · intro c
    by_cases ha : "a" = c
    · have hb : ¬"b" = c := fun hb => absurd (ha.trans hb.symm) (by decide)
      simp [pyGet, List.find?, ha, hb]
    · by_cases hb : "b" = c <;> simp [pyGet, List.find?, ha, hb]
  · intro c
    by_cases ha : "a" = c
    · have hb : ¬"b" = c := fun hb => absurd (ha.trans hb.symm) (by decide)
      simp [pyGet, List.find?, ha, hb]
    · by_cases hb : "b" = c <;> simp [pyGet, List.find?, ha, hb]

/-! ### C9: regular-expression abbreviation decisions -/

/-- C9: both abbreviation decisions are made by matching the pattern
against the stripped line, anchored at its start: (i) the rendering
depends on the matcher only through offset-0 matching, so a pattern
occurrence at a non-zero offset never influences it; (ii) a line whose
stripped form does not match at offset 0 is printed (stripped), and the
cell is not listed; (iii) a line whose stripped form matches at offset
0 — even when the raw line does not match because of leading
whitespace — is suppressed, and the cell is listed. -/
theorem listResults_regexp_anchor :
    (∀ (r r' : REOracle) (cells : List String) (sm : List (String × Int))
        (om : List (String × List String)) (ln : Bool),
      (∀ s, r.matchAt s 0 = r'.matchAt s 0) →
      listResults cells sm om ln (some r) = listResults cells sm om ln (some r'))
    ∧ (∀ (r : REOracle) (c l : String) (sm : List (String × Int)),
        r.matchAt (pyStrip l) 0 = false →
        (listResults [c] sm [(c, [l])] false (some r)).body = [(c, [pyStrip l])]
        ∧ (listResults [c] sm [(c, [l])] false (some r)).reLine = none)
    ∧ (∀ (r : REOracle) (c l : String) (sm : List (String × Int)),
        r.matchAt (pyStrip l) 0 = true →
        (listResults [c] sm [(c, [l])] false (some r)).body = [(c, [])]
        ∧ (listResults [c] sm [(c, [l])] false (some r)).reLine = some [c]) := by
  refine ⟨?_, ?_, ?_⟩
  · intro r r' cells sm om ln h
    have hls : lineSuppressed r = lineSuppressed r' := by
      funext l
      exact h (pyStrip l)
    have hcm : cellMatches r = cellMatches r' := by
      funext out
      unfold cellMatches
      rw [hls]
    unfold listResults listResultsF
    simp only []
    simp [hls, hcm]
  · intro r c l sm h
    constructor <;>
      simp [listResults, listResultsF, pyGet, List.find?, cellMatches,
        lineSuppressed, reMatch, h]
  · intro r c l sm h
    constructor <;>
      simp [listResults, listResultsF, pyGet, List.find?, cellMatches,
        lineSuppressed, reMatch, h]

/-- Matcher for the C9 witness that matches only at offset 1. -/
def reOff1 : REOracle := { matchAt := fun _ i => i == 1 }

/-- Second matcher for the C9 witness: same offset-0 behaviour as
`reOff1` (never matches at 0), different elsewhere. -/
def reOff2 : REOracle := { matchAt := fun _ i => i == 2 }

/-- Matcher for the C9 witness that matches exactly the string `"x"` at
offset 0. -/
def reX : REOracle := { matchAt := fun s i => i == 0 && s == "x" }

/-- C9 witness: matchers agreeing at offset 0 render identically (a
non-zero-offset match is invisible); a line matching only at offset 1
is printed; a line matching only after stripping leading whitespace is
suppressed and its cell listed. -/
theorem listResults_regexp_anchor_witness :
    listResults ["c"] [] [("c", [" x"])] false (some reOff1)
      = listResults ["c"] [] [("c", [" x"])] false (some reOff2)
    ∧ (listResults ["c"] [] [("c", [" x"])] false (some reOff1)).body
      = [("c", ["x"])]
    ∧ (listResults ["c"] [] [("c", ["  x"])] false (some reX)).body = [("c", [])]
    ∧ (listResults ["c"] [] [("c", ["  x"])] false (some reX)).reLine
      = some ["c"] :=
  ⟨listResults_regexp_anchor.1 reOff1 reOff2 ["c"] [] [("c", [" x"])] false
      (fun _ => rfl),
    by
      have h := (listResults_regexp_anchor.2.1 reOff1 "c" " x" [] (by decide)).1
      rw [h]
      rfl,
    (listResults_regexp_anchor.2.2 reX "c" "  x" [] (by decide)).1,
    (listResults_regexp_anchor.2.2 reX "c" "  x" [] (by decide)).2⟩

/-! ### C7: vmstat statistics -/

theorem getD_append_len (u v : List Int) (d : Int) :
    (u ++ v).getD u.length d = v.getD 0 d := by
  induction u with
  | nil => rfl
  | cons a u ih => simpa using ih

theorem set_append_len (u v : List Int) (x : Int) :
    (u ++ v).set u.length x = u ++ v.set 0 x := by
  induction u with
  | nil => rfl
  | cons a u ih => simp [ih]

theorem getD_append_eq (u v : List Int) (i : Nat) (d : Int) (h : u.length = i) :
    (u ++ v).getD i d = v.getD 0 d := by
  subst h
  exact getD_append_len u v d

theorem set_append_eq (u v : List Int) (i : Nat) (x : Int) (h : u.length = i) :
    (u ++ v).set i x = u ++ v.set 0 x := by
  subst h
  exact set_append_len u v x

/-- Processing the first host's row: the statistics lists grow from
length `i` by appending the row values. -/
theorem vmRowLoop_first : ∀ (toks : List String) (r : List Int) (i : Nat)
    (p q u : List Int),
    List.Forall₂ (fun tk n => getInt tk = some n) toks r →
    p.length = i → q.length = i → u.length = i →
    vmRowLoop toks i p q u = (p ++ r, q ++ r, u ++ r)
  | [], [], _, p, q, u, _, _, _, _ => by simp [vmRowLoop]
  | [], _ :: _, _, _, _, _, hrel, _, _, _ => nomatch hrel
  | _ :: _, [], _, _, _, _, hrel, _, _, _ => nomatch hrel
  | t :: toks, n :: r, i, p, q, u, hrel, hp, hq, hu => by
    rcases List.forall₂_cons.mp hrel with ⟨hg, hrel2⟩
    subst hp
    rw [vmRowLoop, hg]
    simp only [if_pos (le_refl p.length), if_pos (le_of_eq hq),
      if_pos (le_of_eq hu)]
    rw [getD_append_eq u [0] p.length 0 hu, set_append_eq u [0] p.length _ hu]
    simp only [List.getD_cons_zero, Int.zero_add, List.set_cons_zero]
    rw [vmRowLoop_first toks r (p.length + 1) (p ++ [n]) (q ++ [n]) (u ++ [n])
      hrel2 (by simp) (by simp [hq]) (by simp [hu])]
    simp

/-- Processing a later host's row onto aligned statistics lists:
pointwise minimum, maximum and sum. -/
theorem vmRowLoop_next : ∀ (toks : List String) (r : List Int) (i : Nat)
    (p pr q qr u ur : List Int),
    List.Forall₂ (fun tk n => getInt tk = some n) toks r →
    p.length = i → q.length = i → u.length = i →
    pr.length = r.length → qr.length = r.length → ur.length = r.length →
    vmRowLoop toks i (p ++ pr) (q ++ qr) (u ++ ur)
      = (p ++ List.zipWith (fun a n => if a > n then n else a) pr r,
         q ++ List.zipWith (fun a n => if a < n then n else a) qr r,
         u ++ List.zipWith (fun a n => a + n) ur r)
  | [], [], _, p, pr, q, qr, u, ur, _, _, _, _, hpr, hqr, hur => by
    have h1 : pr = [] := List.length_eq_zero.mp (by simpa using hpr)
    have h2 : qr = [] := List.length_eq_zero.mp (by simpa using hqr)
    have h3 : ur = [] := List.length_eq_zero.mp (by simpa using hur)
    subst h1
    subst h2
    subst h3
    simp [vmRowLoop]
  | [], _ :: _, _, _, _, _, _, _, _, hrel, _, _, _, _, _, _ => nomatch hrel
  | _ :: _, [], _, _, _, _, _, _, _, hrel, _, _, _, _, _, _ => nomatch hrel
  | t :: toks, n :: r, i, p, pr, q, qr, u, ur, hrel, hp, hq, hu, hpr, hqr, hur => by
    rcases List.forall₂_cons.mp hrel with ⟨hg, hrel2⟩
    cases pr with
    | nil => simp at hpr
    | cons a pr' =>
    cases qr with
    | nil => simp at hqr
    | cons b qr' =>
    cases ur with
    | nil => simp at hur
    | cons e ur' =>
    subst hp
    rw [vmRowLoop, hg]
    have hlen1 : ¬((p ++ a :: pr').length ≤ p.length) := by
      simp only [List.length_append, List.length_cons]
      omega
    have hlen2 : ¬((q ++ b :: qr').length ≤ p.length) := by
      simp only [List.length_append, List.length_cons]
      omega
    have hlen3 : ¬((u ++ e :: ur').length ≤ p.length) := by
      simp only [List.length_append, List.length_cons]
      omega
    simp only [if_neg hlen1, if_neg hlen2, if_neg hlen3]
    have hm : (if (p ++ a :: pr').getD p.length 0 > n
          then (p ++ a :: pr').set p.length n else p ++ a :: pr')
        = p ++ (if a > n then n else a) :: pr' := by
      rw [getD_append_eq p (a :: pr') p.length 0 rfl]
      simp only [List.getD_cons_zero]
      by_cases h : a > n
      · rw [if_pos h, if_pos h, set_append_eq p _ _ _ rfl]
        rfl
      · rw [if_neg h, if_neg h]
    have hM : (if (q ++ b :: qr').getD p.length 0 < n
          then (q ++ b :: qr').set p.length n else q ++ b :: qr')
        = q ++ (if b < n then n else b) :: qr' := by
      rw [getD_append_eq q (b :: qr') p.length 0 hq]
      simp only [List.getD_cons_zero]
      by_cases h : b < n
      · rw [if_pos h, if_pos h, set_append_eq q _ _ _ hq]
        rfl
      · rw [if_neg h, if_neg h]
    have hT : (u ++ e :: ur').set p.length ((u ++ e :: ur').getD p.length 0 + n)
        = u ++ (e + n) :: ur' := by
      rw [getD_append_eq u (e :: ur') p.length 0 hu,
        set_append_eq u _ _ _ hu]
      rfl
    rw [hm, hM, hT]
    have hpr' : pr'.length = r.length := by
      simp only [List.length_cons] at hpr
      omega
    have hqr' : qr'.length = r.length := by
      simp only [List.length_cons] at hqr
      omega
    have hur' : ur'.length = r.length := by
      simp only [List.length_cons] at hur
      omega
    have e1 : p ++ (if a > n then n else a) :: pr'
        = (p ++ [if a > n then n else a]) ++ pr' := by simp
    have e2 : q ++ (if b < n then n else b) :: qr'
        = (q ++ [if b < n then n else b]) ++ qr' := by simp
    have e3 : u ++ (e + n) :: ur' = (u ++ [e + n]) ++ ur' := by simp
    rw [e1, e2, e3, vmRowLoop_next toks r (p.length + 1)
      (p ++ [if a > n then n else a]) pr' (q ++ [if b < n then n else b]) qr'
      (u ++ [e + n]) ur' hrel2 (by simp) (by simp [hq]) (by simp [hu])
      hpr' hqr' hur']
    simp

theorem foldl_zipWith_length (f : Int → Int → Int) :
    ∀ (vals : List (List Int)) (m : List Int) (k : Nat),
      (∀ r ∈ vals, r.length = k) → m.length = k →
      (vals.foldl (List.zipWith f) m).length = k
  | [], _, _, _, hm => hm
  | r :: vals, m, k, hk, hm => by
    rw [List.foldl_cons]
    exact foldl_zipWith_length f vals _ k
      (fun r' hr' => hk r' (List.mem_cons_of_mem _ hr'))
      (by rw [List.length_zipWith, hm, hk r (List.mem_cons_self r vals)]
          exact Nat.min_self k)

theorem zipWith_getD (f : Int → Int → Int) :
    ∀ (a b : List Int) (i : Nat), i < a.length → a.length = b.length →
      (List.zipWith f a b).getD i 0 = f (a.getD i 0) (b.getD i 0)
  | [], _, i, hi, _ => by simp at hi
  | _ :: _, [], _, _, hl => by simp at hl
  | _ :: _, _ :: _, 0, _, _ => rfl
  | x :: a, y :: b, i + 1, hi, hl => by
    simp only [List.zipWith_cons_cons, List.getD_cons_succ]
    exact zipWith_getD f a b i (by simpa using hi) (by simpa using hl)

theorem foldl_zipWith_getD (f : Int → Int → Int) :
    ∀ (vals : List (List Int)) (m : List Int) (k i : Nat),
      (∀ r ∈ vals, r.length = k) → m.length = k → i < k →
      (vals.foldl (List.zipWith f) m).getD i 0
        = (vals.map (fun r => r.getD i 0)).foldl f (m.getD i 0)
  | [], _, _, _, _, _, _ => rfl
  | r :: vals, m, k, i, hk, hm, hi => by
    rw [List.foldl_cons, List.map_cons, List.foldl_cons]
    have hrec := foldl_zipWith_getD f vals (List.zipWith f m r) k i
      (fun r' h => hk r' (List.mem_cons_of_mem _ h))
      (by rw [List.length_zipWith, hm, hk r (List.mem_cons_self r vals)]
          exact Nat.min_self k) hi
    rw [hrec, zipWith_getD f m r i (by rw [hm]; exact hi)
      (by rw [hm, hk r (List.mem_cons_self r vals)])]

/-- The per-host fold on aligned statistics lists equals the
column-wise `zipWith` folds. -/
theorem vmStatsFold_go : ∀ (rows : List (List String)) (vals : List (List Int))
    (k : Nat) (m M t : List Int),
    List.Forall₂ (fun toks r =>
      List.Forall₂ (fun tk n => getInt tk = some n) toks r) rows vals →
    (∀ r ∈ vals, r.length = k) → m.length = k → M.length = k → t.length = k →
    rows.foldl (fun acc toks => vmRowLoop toks 0 acc.1 acc.2.1 acc.2.2) (m, M, t)
      = (vals.foldl (List.zipWith (fun a n => if a > n then n else a)) m,
         vals.foldl (List.zipWith (fun a n => if a < n then n else a)) M,
         vals.foldl (List.zipWith (fun a n => a + n)) t)
  | [], [], _, _, _, _, _, _, _, _, _ => rfl
  | [], _ :: _, _, _, _, _, hrel, _, _, _, _ => nomatch hrel
  | _ :: _, [], _, _, _, _, hrel, _, _, _, _ => nomatch hrel
  | toks :: rows, r :: vals, k, m, M, t, hrel, hk, hm, hM, ht => by
    rcases List.forall₂_cons.mp hrel with ⟨hrow, hrel2⟩
    have hrk : r.length = k := hk r (List.mem_cons_self r vals)
    have hstep := vmRowLoop_next toks r 0 [] m [] M [] t hrow rfl rfl rfl
      (by rw [hm, hrk]) (by rw [hM, hrk]) (by rw [ht, hrk])
    simp only [List.nil_append] at hstep
    rw [List.foldl_cons, List.foldl_cons, List.foldl_cons, List.foldl_cons]
    have hred : vmRowLoop toks 0 (m, M, t).1 (m, M, t).2.1 (m, M, t).2.2
        = vmRowLoop toks 0 m M t := rfl
    rw [hred, hstep]
    exact vmStatsFold_go rows vals k _ _ _ hrel2
      (fun r' h => hk r' (List.mem_cons_of_mem _ h))
      (by rw [List.length_zipWith, hm, hrk]; exact Nat.min_self k)
      (by rw [List.length_zipWith, hM, hrk]; exact Nat.min_self k)
      (by rw [List.length_zipWith, ht, hrk]; exact Nat.min_self k)

theorem pymin_eq (a n : Int) : (if a > n then n else a) = min a n := by
  rcases le_or_lt a n with h | h
  · rw [if_neg (by omega), min_eq_left h]
  · rw [if_pos h, min_eq_right (by omega)]

theorem pymax_eq (a n : Int) : (if a < n then n else a) = max a n := by
  rcases le_or_lt n a with h | h
  · rw [if_neg (by omega), max_eq_left h]
  · rw [if_pos h, max_eq_right (by omega)]

theorem map_getD_int (f : Int → Int) :
    ∀ (l : List Int) (i : Nat), i < l.length →
      (l.map f).getD i 0 = f (l.getD i 0)
  | [], i, h => by simp at h
  | _ :: _, 0, _ => rfl
  | x :: l, i + 1, h => by
    simp only [List.map_cons, List.getD_cons_succ]
    exact map_getD_int f l i (by simpa using h)

/-- C7 counterexample: two hosts reporting column values 3 and 4.  The
code's Average entry is 3 — Python 2 integer division floors 7/2 —
while the claim's rounded quotient of the column sum (7) by the host
count (2) is 4. -/
theorem vmstat_average_not_rounded :
    vmAverages (vmStatsOf [("a", ["3"]), ("b", ["4"])]).2.2 2 = [3]
    ∧ specRoundedAvg (listSum (colVals [[3], [4]] 0)) 2 = 4
    ∧ (3 : Int) ≠ 4 := by
  decide

/-- C7 (amended): when every reporting host's last output line parses
into `k` integer columns, the statistics of one round are, per column,
the least value (Minimum), the greatest value (Maximum), and the floor
quotient of the column sum by the number of reporting hosts (Average —
Python 2 `/` floors, and `int(round(...))` of an integer is the
identity); the Minimum/Maximum/Average rows are shown only when more
than one host reported. -/
theorem listVmstatResults_stats (om : List (String × List String))
    (vals : List (List Int)) (k : Nat)
    (hrel : List.Forall₂ (fun p r =>
      List.Forall₂ (fun tk n => getInt tk = some n) (lastLineTokens p.2) r)
      om vals)
    (hk : ∀ r ∈ vals, r.length = k) (hne : vals ≠ []) :
    (∀ i, i < k →
      (vmStatsOf om).1.getD i 0 = listMinimum (colVals vals i)
      ∧ (vmStatsOf om).2.1.getD i 0 = listMaximum (colVals vals i)
      ∧ (vmAverages (vmStatsOf om).2.2 om.length).getD i 0
          = Int.fdiv (listSum (colVals vals i)) (om.length : Int))
    ∧ (vmStatsRowsShown om.length = true ↔ 1 < om.length) := by
  refine ⟨?_, by simp [vmStatsRowsShown]⟩
  intro i hi
  rcases vals with _ | ⟨r0, rest⟩
  · exact absurd rfl hne
  rcases om with _ | ⟨p0, om'⟩
  · exact nomatch hrel
  rcases List.forall₂_cons.mp hrel with ⟨hrow0, hrel2⟩
  have hr0 : r0.length = k := hk r0 (List.mem_cons_self r0 rest)
  have hkrest : ∀ r ∈ rest, r.length = k :=
    fun r h => hk r (List.mem_cons_of_mem _ h)
  have hfirst := vmRowLoop_first (lastLineTokens p0.2) r0 0 [] [] [] hrow0
    rfl rfl rfl
  simp only [List.nil_append] at hfirst
  have hrows : List.Forall₂ (fun toks r =>
      List.Forall₂ (fun tk n => getInt tk = some n) toks r)
      (om'.map (fun p => lastLineTokens p.2)) rest := by
    rw [List.forall₂_map_left_iff]
    exact hrel2
  have hfold := vmStatsFold_go (om'.map (fun p => lastLineTokens p.2)) rest k
    r0 r0 r0 hrows hkrest hr0 hr0 hr0
  have hstats : vmStatsOf (p0 :: om')
      = (rest.foldl (List.zipWith (fun a n => if a > n then n else a)) r0,
         rest.foldl (List.zipWith (fun a n => if a < n then n else a)) r0,
         rest.foldl (List.zipWith (fun a n => a + n)) r0) := by
    unfold vmStatsOf vmStatsFold
    rw [List.map_cons, List.foldl_cons]
    have hred : vmRowLoop (lastLineTokens p0.2) 0
          (([] : List Int), ([] : List Int), ([] : List Int)).1
          (([] : List Int), ([] : List Int), ([] : List Int)).2.1
          (([] : List Int), ([] : List Int), ([] : List Int)).2.2
        = vmRowLoop (lastLineTokens p0.2) 0 [] [] [] := rfl
    rw [hred, hfirst, hfold]
  have hcol : colVals (r0 :: rest) i = r0.getD i 0 :: rest.map (fun r => r.getD i 0) := by
    simp [colVals]
  have hminf : (fun a n : Int => if a > n then n else a) = fun a n : Int => min a n := by
    funext a n
    exact pymin_eq a n
  have hmaxf : (fun a n : Int => if a < n then n else a) = fun a n : Int => max a n := by
    funext a n
    exact pymax_eq a n
  have hlen_sum : (rest.foldl (List.zipWith (fun a n => a + n)) r0).length = k :=
    foldl_zipWith_length _ rest r0 k hkrest hr0
  have homlen : (p0 :: om').length = (r0 :: rest).length :=
    hrel.length_eq
  refine ⟨?_, ?_, ?_⟩
  · rw [hstats]
    have h1 := foldl_zipWith_getD (fun a n => if a > n then n else a) rest r0 k i
      hkrest hr0 hi
    rw [h1, hcol]
    unfold listMinimum
    rw [hminf]
  · rw [hstats]
    have h1 := foldl_zipWith_getD (fun a n => if a < n then n else a) rest r0 k i
      hkrest hr0 hi
    rw [h1, hcol]
    unfold listMaximum
    rw [hmaxf]
  · rw [hstats]
    unfold vmAverages
    rw [map_getD_int _ _ i (by rw [hlen_sum]; exact hi)]
    have h1 := foldl_zipWith_getD (fun a n => a + n) rest r0 k i hkrest hr0 hi
    rw [h1, hcol]
    unfold listSum
    rw [List.foldl_cons, Int.zero_add]

/-- Output map for the C7 witness: three hosts reporting 10, 20, 30. -/
def om3 : List (String × List String) :=
  [("a", ["10"]), ("b", ["20"]), ("c", ["30"])]

theorem om3_rel : List.Forall₂ (fun (p : String × List String) (r : List Int) =>
    List.Forall₂ (fun tk n => getInt tk = some n) (lastLineTokens p.2) r)
    om3 [[10], [20], [30]] := by
  refine List.Forall₂.cons ?_ (List.Forall₂.cons ?_
    (List.Forall₂.cons ?_ List.Forall₂.nil)) <;>
    exact List.Forall₂.cons (by decide) List.Forall₂.nil

/-- C7 witness: for hosts reporting 10, 20, 30 the Minimum is 10, the
Maximum is 30, the Average is 20, and the statistics rows are shown. -/
theorem listVmstatResults_stats_witness :
    (vmStatsOf om3).1.getD 0 0 = 10
    ∧ (vmStatsOf om3).2.1.getD 0 0 = 30
    ∧ (vmAverages (vmStatsOf om3).2.2 om3.length).getD 0 0 = 20
    ∧ vmStatsRowsShown om3.length = true := by
  have h := listVmstatResults_stats om3 [[10], [20], [30]] 1 om3_rel
    (by decide) (by decide)
  have hi := h.1 0 (by decide)
  refine ⟨?_, ?_, ?_, ?_⟩
  · rw [hi.1]
    decide
  · rw [hi.2.1]
    decide
  · rw [hi.2.2]
    decide
  · exact (h.2).mpr (by decide)

end Dcli
